import Mathlib

/-!
Verification development for the RMCS kinematic-chain engine
(`src/RMCS_PROXY_DEMO/src/kinematics.hpp`, namespace `hebi::kinematics`).

The repository ships only the interface header: the bodies/tree data model,
forward kinematics, Jacobians and the iterative IK solver are implemented in
an external library that is not part of the sources.  Following the design
document, the engine is therefore modelled here from the specification
(and from the contracts stated in the header's documentation comments),
as a shallow embedding over exact rational arithmetic:

* 4x4 homogeneous transforms are functions `Fin 4 → Fin 4 → ℚ`;
* a `Body` is an opaque provider of local transforms (one per output
  connector, plus a center-of-mass transform), a kind tag (rotary actuator,
  tube link, generic fixed transform) and a body-fixed rotation axis;
* a `Tree` is an arena of body records in insertion order, each body storing
  the index of its parent body and the parent output connector it occupies,
  together with a base frame (identity by default);
* fallible operations return `Except KinError`.
-/

namespace RMCS

/-- Decidable equality of `Except` results, used to evaluate the model on
concrete inputs. -/
instance {ε α : Type} [DecidableEq ε] [DecidableEq α] : DecidableEq (Except ε α) :=
  fun a b =>
    match a, b with
    | .error e, .error f =>
        if h : e = f then .isTrue (congrArg Except.error h)
        else .isFalse fun hh => h (Except.error.inj hh)
    | .error _, .ok _ => .isFalse fun hh => Except.noConfusion hh
    | .ok _, .error _ => .isFalse fun hh => Except.noConfusion hh
    | .ok x, .ok y =>
        if h : x = y then .isTrue (congrArg Except.ok h)
        else .isFalse fun hh => h (Except.ok.inj hh)

/-- 4x4 homogeneous transform over exact rationals. -/
abbrev Mat4 := Fin 4 → Fin 4 → ℚ

/-- 3-dimensional vector. -/
abbrev Vec3 := Fin 3 → ℚ

/-- Rational addition, written through `mkRat` (extensionally equal to `+`;
stated so because the library's `Rat.add` is `@[irreducible]`, which would
make concrete witnesses non-evaluable). -/
def qadd (a b : ℚ) : ℚ := mkRat (a.num * b.den + b.num * a.den) (a.den * b.den)

/-- Rational subtraction through `mkRat` (extensionally equal to `-`). -/
def qsub (a b : ℚ) : ℚ := mkRat (a.num * b.den - b.num * a.den) (a.den * b.den)

/-- Rational multiplication through `mkRat` (extensionally equal to `*`). -/
def qmul (a b : ℚ) : ℚ := mkRat (a.num * b.num) (a.den * b.den)

/-- Rational division through `Rat.divInt` (extensionally equal to `/`). -/
def qdiv (a b : ℚ) : ℚ := Rat.divInt (a.num * b.den) (a.den * b.num)

/-- Rational negation. -/
def qneg (a : ℚ) : ℚ := Rat.neg a

/-- Sum of a list of rationals. -/
def qsum (l : List ℚ) : ℚ := l.foldr qadd 0

/-- `qadd` agrees with the ambient rational addition. -/
theorem qadd_eq (a b : ℚ) : qadd a b = a + b := (Rat.add_def' a b).symm

/-- `qsub` agrees with the ambient rational subtraction. -/
theorem qsub_eq (a b : ℚ) : qsub a b = a - b := (Rat.sub_def' a b).symm

/-- `qmul` agrees with the ambient rational multiplication. -/
theorem qmul_eq (a b : ℚ) : qmul a b = a * b := by
  rw [Rat.mul_def, Rat.normalize_eq_mkRat, qmul]

/-- `qneg` agrees with the ambient rational negation. -/
theorem qneg_eq (a : ℚ) : qneg a = -a := rfl

/-- Matrix product of two 4x4 transforms. -/
def mat4Mul (A B : Mat4) : Mat4 := fun i k =>
  qsum [qmul (A i 0) (B 0 k), qmul (A i 1) (B 1 k),
        qmul (A i 2) (B 2 k), qmul (A i 3) (B 3 k)]

/-- The identity 4x4 transform. -/
def mat4Id : Mat4 := fun i j => if i = j then 1 else 0

/-- Zero 3-vector. -/
def vec3Zero : Vec3 := fun _ => 0

/-- Cross product of two 3-vectors. -/
def cross (a b : Vec3) : Vec3 := fun i =>
  qsub (qmul (a (i + 1)) (b (i + 2))) (qmul (a (i + 2)) (b (i + 1)))

/-- Difference of two 3-vectors. -/
def vsub (a b : Vec3) : Vec3 := fun i => qsub (a i) (b i)

/-- Translation part (last column, first three rows) of a 4x4 transform. -/
def transOf (M : Mat4) : Vec3 := fun r => M r.castSucc 3

/-- Apply the rotation block (upper-left 3x3) of a 4x4 transform to a 3-vector. -/
def rotApply (M : Mat4) (v : Vec3) : Vec3 := fun r =>
  qsum [qmul (M r.castSucc 0) (v 0), qmul (M r.castSucc 1) (v 1),
        qmul (M r.castSucc 2) (v 2)]

/-- Modelled from the spec: the kind of a kinematic body, matching the three
construction factories of `KinematicBody` (`createX5` rotary actuator,
`createX5Link` tube link, `createGenericLink` generic fixed transform). -/
inductive BodyKind
  | rotary
  | link
  | generic
deriving DecidableEq, Repr

/-- Modelled from the spec: a kinematic body.  The underlying rigid-body
library is an external collaborator, so a body is kept opaque: it provides
one local output transform per output connector (a function of the joint
value, which is ignored by 0-DoF bodies), a center-of-mass transform, and
for rotary actuators a body-fixed rotation axis used by the Jacobian. -/
structure Body where
  kind : BodyKind
  outputCount : ℕ
  localOut : ℕ → ℚ → Mat4
  localCoM : ℚ → Mat4
  axis : Vec3

/-- Joint-variable count of a body: rotary actuators contribute one settable
degree of freedom, links and generic fixed transforms contribute zero. -/
def Body.dof (b : Body) : ℕ :=
  match b.kind with
  | .rotary => 1
  | .link => 0
  | .generic => 0

/-- A body record held by a tree: the body together with the connector it
occupies (`none` for the root, otherwise parent body index and parent
output connector index). -/
structure BodyRec where
  body : Body
  parent : Option (ℕ × ℕ)

/-- Modelled from the spec: a kinematic tree (`Kinematics` in the header):
a base frame plus an arena of body records in insertion order. -/
structure Tree where
  baseFrame : Mat4
  bodies : List BodyRec

/-- Frame type selector (`HebiFrameType`): center-of-mass frames (one per
body) or output frames (one per output connector per body). -/
inductive FrameType
  | centerOfMass
  | output
deriving DecidableEq, Repr

/-- Error taxonomy of the engine's fallible calls. -/
inductive KinError
  | dimensionMismatch
deriving DecidableEq, Repr

/-- Status reported by the IK solver. -/
inductive IKStatus
  | converged
  | maxIterationsReached
deriving DecidableEq, Repr

/-- A freshly constructed kinematics object: no bodies and an identity base
frame. -/
def Tree.empty : Tree := ⟨mat4Id, []⟩

/-- `setBaseFrame`: set the transform from the world frame to the input of
the root body. -/
def setBaseFrame (t : Tree) (M : Mat4) : Tree := { t with baseFrame := M }

/-- `getBaseFrame`: the transform from the world frame to the root body, as
set by `setBaseFrame`. -/
def getBaseFrame (t : Tree) : Mat4 := t.baseFrame

/-- `getDoFCount`: number of settable degrees of freedom (the number of
actuators added). -/
def getDoFCount (t : Tree) : ℕ := (t.bodies.map (fun r => r.body.dof)).sum

/-- Body record lookup by arena index. -/
def recAt? (t : Tree) (i : ℕ) : Option BodyRec := t.bodies[i]?

/-- Parent connector of body `i` (`none` for the root or out-of-range). -/
def parentOf (t : Tree) (i : ℕ) : Option (ℕ × ℕ) :=
  match recAt? t i with
  | some r => r.parent
  | none => none

/-- Output connector count of body `i` (0 if out of range). -/
def outCountAt (t : Tree) (i : ℕ) : ℕ :=
  match recAt? t i with
  | some r => r.body.outputCount
  | none => 0

/-- Joint-variable count of body `i` (0 if out of range). -/
def dofAt (t : Tree) (i : ℕ) : ℕ :=
  match recAt? t i with
  | some r => r.body.dof
  | none => 0

/-- Local output transform of body `i` at output `o` and joint value `v`. -/
def localOutAt (t : Tree) (i o : ℕ) (v : ℚ) : Mat4 :=
  match recAt? t i with
  | some r => r.body.localOut o v
  | none => mat4Id

/-- Local center-of-mass transform of body `i` at joint value `v`. -/
def localCoMAt (t : Tree) (i : ℕ) (v : ℚ) : Mat4 :=
  match recAt? t i with
  | some r => r.body.localCoM v
  | none => mat4Id

/-- Body-fixed rotation axis of body `i`. -/
def axisAt (t : Tree) (i : ℕ) : Vec3 :=
  match recAt? t i with
  | some r => r.body.axis
  | none => vec3Zero

/-- `getFrameCount`: number of frames in the forward kinematics — one per
body for center-of-mass frames, one per output connector per body for
output frames (per the header's documented contract). -/
def getFrameCount (t : Tree) (ft : FrameType) : ℕ :=
  match ft with
  | .centerOfMass => t.bodies.length
  | .output => ((List.range t.bodies.length).map (fun i => outCountAt t i)).sum

/-- True when no body occupies output connector `o` of body `p`. -/
def connectorFree (t : Tree) (p o : ℕ) : Bool :=
  t.bodies.all fun r => decide (r.parent ≠ some (p, o))

/-- Modelled from the spec: `addBody`.  The header's `addBody` takes only
the new body (the attachment point is managed internally); the attachment
point is made explicit here: `none` adds the root to an empty tree, and
`some (p, o)` attaches to output connector `o` of existing body `p`.
The call reports success via a boolean; it fails — leaving the tree
unchanged — when the tree already has a root, the parent index is out of
range, the output index exceeds the parent's connector capacity, or the
requested connector is already consumed. -/
def addBody (t : Tree) (ps : Option (ℕ × ℕ)) (b : Body) : Bool × Tree :=
  match ps with
  | none =>
      if t.bodies.isEmpty then (true, { t with bodies := [⟨b, none⟩] })
      else (false, t)
  | some (p, o) =>
      match recAt? t p with
      | none => (false, t)
      | some pr =>
          if o < pr.body.outputCount ∧ connectorFree t p o = true then
            (true, { t with bodies := t.bodies ++ [⟨b, some (p, o)⟩] })
          else (false, t)

/-- Structural well-formedness of the arena: a body with no parent connector
is the root (index 0), and a parent connector names an earlier body and one
of its existing output connectors.  Every tree reachable through `addBody`
satisfies this. -/
def wfB (t : Tree) : Bool :=
  (List.range t.bodies.length).all fun j =>
    match parentOf t j with
    | none => j == 0
    | some (p, o) => decide (p < j) && decide (o < outCountAt t p)

/-- Joint-variable index of body `i`: number of degrees of freedom
contributed by the bodies inserted before it (the spec's depth-first body
sequence coincides with insertion order). -/
def jointIdx (t : Tree) (i : ℕ) : ℕ :=
  ((t.bodies.take i).map (fun r => r.body.dof)).sum

/-- Joint value of body `i` under joint vector `q` (0 for 0-DoF bodies,
whose local transforms ignore it). -/
def jointVal (t : Tree) (q : List ℚ) (i : ℕ) : ℚ :=
  if dofAt t i = 1 then q.getD (jointIdx t i) 0 else 0

/-- Fuelled absolute-input-transform computation: parent indices strictly
decrease along the ancestor chain, so fuel `i` is always sufficient for
body `i`. -/
def absInF (t : Tree) (q : List ℚ) : ℕ → ℕ → Mat4
  | 0, _ => t.baseFrame
  | fuel + 1, i =>
      match parentOf t i with
      | none => t.baseFrame
      | some (p, o) =>
          if p < i then
            mat4Mul (absInF t q fuel p) (localOutAt t p o (jointVal t q p))
          else t.baseFrame

/-- Modelled from the spec: absolute transform of the input frame of body
`i` — the parent's absolute output transform, with the tree's base frame
for the root (FK composition contract of `getFK`). -/
def absIn (t : Tree) (q : List ℚ) (i : ℕ) : Mat4 := absInF t q i i

/-- The parent's absolute output transform for body `i`, written without
recursion through `i` itself: the base frame for the root, and otherwise
the parent's absolute input times the parent's local output transform. -/
def parentAbsOut (t : Tree) (q : List ℚ) (i : ℕ) : Mat4 :=
  match parentOf t i with
  | none => t.baseFrame
  | some (p, o) => mat4Mul (absIn t q p) (localOutAt t p o (jointVal t q p))

/-- Local transform of the requested frame of body `i`: the center-of-mass
transform, or the output transform of connector `o`. -/
def localFrame (t : Tree) (ft : FrameType) (i o : ℕ) (v : ℚ) : Mat4 :=
  match ft with
  | .centerOfMass => localCoMAt t i v
  | .output => localOutAt t i o v

/-- Absolute transform of frame `(i, o)` of the requested type. -/
def frameAbs (t : Tree) (q : List ℚ) (ft : FrameType) (f : ℕ × ℕ) : Mat4 :=
  mat4Mul (absIn t q f.1) (localFrame t ft f.1 f.2 (jointVal t q f.1))

/-- Children attached to output connector `o` of body `p`, in insertion
order. -/
def childrenOf (t : Tree) (p o : ℕ) : List ℕ :=
  (List.range t.bodies.length).filter fun j => parentOf t j = some (p, o)

/-- Fuelled depth-first traversal of body indices: a body, then for each
output connector in ascending order the subtrees rooted at its children. -/
def dfsB (t : Tree) : ℕ → ℕ → List ℕ
  | 0, _ => []
  | fuel + 1, i =>
      i :: (List.range (outCountAt t i)).flatMap fun o =>
        (childrenOf t i o).flatMap fun j => dfsB t fuel j

/-- Fuelled depth-first traversal of output frames: for each output
connector in ascending order, the connector's frame followed by the frames
of the subtree attached to it. -/
def dfsOutF (t : Tree) : ℕ → ℕ → List (ℕ × ℕ)
  | 0, _ => []
  | fuel + 1, i =>
      (List.range (outCountAt t i)).flatMap fun o =>
        (i, o) :: ((childrenOf t i o).flatMap fun j => dfsOutF t fuel j)

/-- Depth-first traversal of the subtree rooted at body `i`, with canonical
(sufficient) fuel. -/
def visit (t : Tree) (i : ℕ) : List ℕ := dfsB t (t.bodies.length - i) i

/-- Depth-first output-frame traversal of the subtree rooted at body `i`,
with canonical (sufficient) fuel. -/
def visitO (t : Tree) (i : ℕ) : List (ℕ × ℕ) := dfsOutF t (t.bodies.length - i) i

/-- Bodies of the tree in depth-first order starting at the root. -/
def dfsBodies (t : Tree) : List ℕ :=
  if t.bodies.isEmpty then [] else visit t 0

/-- Position of a body in the depth-first traversal. -/
def dfIdx (t : Tree) (b : ℕ) : ℕ := (dfsBodies t).indexOf b

/-- The frames of the requested type, in depth-first order: for
center-of-mass frames one frame per body (output index unused), for output
frames one frame per output connector per body. -/
def frameList (t : Tree) (ft : FrameType) : List (ℕ × ℕ) :=
  match ft with
  | .centerOfMass => (dfsBodies t).map (fun i => (i, 0))
  | .output => if t.bodies.isEmpty then [] else visitO t 0

/-- Modelled from the spec: `getFK` / `getForwardKinematics`.  Validates the
joint-vector length against the DoF count (dimension mismatch is signalled
synchronously and no frames are produced) and otherwise returns the
absolute transform of every frame of the requested type, in depth-first
order. -/
def getFK (t : Tree) (ft : FrameType) (q : List ℚ) : Except KinError (List Mat4) :=
  if q.length = getDoFCount t then
    .ok ((frameList t ft).map (frameAbs t q ft))
  else .error .dimensionMismatch

/-- Modelled from the spec: `getEndEffector` — the single-leaf
specialization of `getFK`, returning the last frame in depth-first order. -/
def getEndEffector (t : Tree) (ft : FrameType) (q : List ℚ) : Except KinError Mat4 :=
  (getFK t ft q).map fun F => F.getLastD mat4Id

/-- Fuelled ancestor-chain computation: parent indices strictly decrease,
so fuel `j` is always sufficient for body `j`. -/
def ancsF (t : Tree) : ℕ → ℕ → List ℕ
  | 0, j => [j]
  | fuel + 1, j =>
      j :: (match parentOf t j with
            | some (p, _) => if p < j then ancsF t fuel p else []
            | none => [])

/-- Ancestor chain of body `j`: `j`, its parent, its parent's parent, …,
up to the root.  A joint kinematically precedes a frame of body `i`
exactly when the joint's body lies on this chain for `i`. -/
def ancs (t : Tree) (j : ℕ) : List ℕ := ancsF t j j

/-- Joint-contributing bodies (one column per settable degree of freedom),
in the depth-first body sequence order. -/
def jointBodies (t : Tree) : List ℕ :=
  (List.range t.bodies.length).filter fun i => dofAt t i = 1

/-- World-frame rotation axis of the joint of body `b`: the rotation block
of the body's absolute input transform applied to its body-fixed axis. -/
def jointAxisW (t : Tree) (q : List ℚ) (b : ℕ) : Vec3 :=
  rotApply (absIn t q b) (axisAt t b)

/-- World-frame position of the joint of body `b`: the translation part of
the body's absolute input transform. -/
def jointPosW (t : Tree) (q : List ℚ) (b : ℕ) : Vec3 :=
  transOf (absIn t q b)

/-- Modelled from the spec: one column of the geometric Jacobian of frame
`f` with respect to the joint of body `b` — linear part
`a × (p_T − p_j)` and angular part `a` for a rotary joint that
kinematically precedes the frame, and the zero column otherwise. -/
def jacColumn (t : Tree) (q : List ℚ) (ft : FrameType) (f : ℕ × ℕ) (b : ℕ) :
    Vec3 × Vec3 :=
  if b ∈ ancs t f.1 then
    let a := jointAxisW t q b
    (cross a (vsub (transOf (frameAbs t q ft f)) (jointPosW t q b)), a)
  else (vec3Zero, vec3Zero)

/-- The 6 × DoF Jacobian of frame `f`, represented as its list of columns
(linear part, angular part). -/
def jacOfFrame (t : Tree) (q : List ℚ) (ft : FrameType) (f : ℕ × ℕ) :
    List (Vec3 × Vec3) :=
  (jointBodies t).map (jacColumn t q ft f)

/-- Modelled from the spec: `getJ` / `getJacobians`.  Validates the
joint-vector length and otherwise returns one Jacobian per frame of the
requested type, in the same depth-first frame order as `getFK`. -/
def getJ (t : Tree) (ft : FrameType) (q : List ℚ) :
    Except KinError (List (List (Vec3 × Vec3))) :=
  if q.length = getDoFCount t then
    .ok ((frameList t ft).map (jacOfFrame t q ft))
  else .error .dimensionMismatch

/-- Modelled from the spec: `getJEndEffector` / `getJacobianEndEffector` —
the single-leaf specialization of `getJ`, returning the Jacobian of the
last frame in depth-first order. -/
def getJEndEffector (t : Tree) (ft : FrameType) (q : List ℚ) :
    Except KinError (List (Vec3 × Vec3)) :=
  (getJ t ft q).map fun Js => Js.getLastD []

/-- Squared-error convergence tolerance of the IK solver. -/
def ikTol2 : ℚ := mkRat 1 100000000

/-- Squared damping factor λ² of the damped-least-squares step. -/
def ikLambda2 : ℚ := mkRat 1 100

/-- Per-component clamp bound of the damped-least-squares step. -/
def ikStepMax : ℚ := mkRat 1 2

/-- The end-effector frame: last output frame in depth-first order. -/
def endFrame (t : Tree) : ℕ × ℕ := (frameList t .output).getLastD (0, 0)

/-- World position of the end effector at joint vector `q`. -/
def endEffPos (t : Tree) (q : List ℚ) : Vec3 :=
  transOf (frameAbs t q .output (endFrame t))

/-- Squared end-effector position error at joint vector `q`. -/
def errSq (t : Tree) (target : Vec3) (q : List ℚ) : ℚ :=
  let e := vsub target (endEffPos t q)
  qsum [qmul (e 0) (e 0), qmul (e 1) (e 1), qmul (e 2) (e 2)]

/-- Determinant of a 3x3 matrix (expansion along the first row, with
cyclic-index cofactors). -/
def det3 (M : Fin 3 → Fin 3 → ℚ) : ℚ :=
  qsum [qmul (M 0 0) (qsub (qmul (M 1 1) (M 2 2)) (qmul (M 1 2) (M 2 1))),
        qmul (M 0 1) (qsub (qmul (M 1 2) (M 2 0)) (qmul (M 1 0) (M 2 2))),
        qmul (M 0 2) (qsub (qmul (M 1 0) (M 2 1)) (qmul (M 1 1) (M 2 0)))]

/-- Inverse of a 3x3 matrix via the adjugate (entries divide by the
determinant; rational division by zero yields zero). -/
def inv3 (M : Fin 3 → Fin 3 → ℚ) : Fin 3 → Fin 3 → ℚ := fun r c =>
  qdiv (qsub (qmul (M (c + 1) (r + 1)) (M (c + 2) (r + 2)))
             (qmul (M (c + 1) (r + 2)) (M (c + 2) (r + 1)))) (det3 M)

/-- Clamp a scalar step component to `[-ikStepMax, ikStepMax]`. -/
def clampStep (x : ℚ) : ℚ :=
  if x < qneg ikStepMax then qneg ikStepMax
  else if ikStepMax < x then ikStepMax else x

/-- Dot product of two 3-vectors. -/
def dot3 (a b : Vec3) : ℚ :=
  qsum [qmul (a 0) (b 0), qmul (a 1) (b 1), qmul (a 2) (b 2)]

/-- Modelled from the spec: one damped-least-squares IK step.  With `J` the
3 × DoF positional sub-Jacobian of the end effector and `e` the position
error, the update is `Δq = Jᵀ (J Jᵀ + λ² I)⁻¹ e`, clamped per component,
added to the current joint vector. -/
def dlsStep (t : Tree) (target : Vec3) (q : List ℚ) : List ℚ :=
  let cols : List Vec3 :=
    (jointBodies t).map fun b => (jacColumn t q .output (endFrame t) b).1
  let e : Vec3 := vsub target (endEffPos t q)
  let M : Fin 3 → Fin 3 → ℚ := fun r c =>
    qadd (qsum (cols.map fun v => qmul (v r) (v c)))
         (if r = c then ikLambda2 else 0)
  let Minv := inv3 M
  let w : Vec3 := fun r => dot3 (Minv r) e
  let dq : List ℚ := cols.map fun v => clampStep (dot3 v w)
  q.zipWith qadd dq

/-- Modelled from the spec: the IK iteration loop.  At each step the current
iterate is tested against the convergence tolerance (success), otherwise a
damped-least-squares step is taken and the best (lowest-error) iterate seen
so far is retained; when the iteration budget is exhausted the best iterate
is returned with a distinct non-convergence status. -/
def ikLoop (t : Tree) (target : Vec3) : ℕ → List ℚ → List ℚ → IKStatus × List ℚ
  | 0, _, best => (.maxIterationsReached, best)
  | n + 1, q, best =>
      if errSq t target q < ikTol2 then (.converged, q)
      else
        let q2 := dlsStep t target q
        ikLoop t target n q2
          (if errSq t target q2 < errSq t target best then q2 else best)

/-- The iterates visited by the IK loop from seed `q` with the given
iteration budget (truncated at convergence). -/
def ikTrace (t : Tree) (target : Vec3) : ℕ → List ℚ → List (List ℚ)
  | 0, q => [q]
  | n + 1, q =>
      q :: (if errSq t target q < ikTol2 then []
            else ikTrace t target n (dlsStep t target q))

/-- Modelled from the spec: `solveIK` / `solveInverseKinematics`.  Validates
the seed length, then iterates damped least squares from the seed for at
most `maxIter` iterations, returning the solver status together with the
resulting joint vector. -/
def solveIK (t : Tree) (maxIter : ℕ) (target : Vec3) (q0 : List ℚ) :
    Except KinError (IKStatus × List ℚ) :=
  if q0.length = getDoFCount t then .ok (ikLoop t target maxIter q0 q0)
  else .error .dimensionMismatch

/-- Long-form name: `getForwardKinematics` delegates to `getFK`
("See getFK for details"). -/
def getForwardKinematics (t : Tree) (ft : FrameType) (q : List ℚ) :
    Except KinError (List Mat4) := getFK t ft q

/-- Long-form name: `getJacobians` delegates to `getJ`. -/
def getJacobians (t : Tree) (ft : FrameType) (q : List ℚ) :
    Except KinError (List (List (Vec3 × Vec3))) := getJ t ft q

/-- Long-form name: `solveInverseKinematics` delegates to `solveIK`. -/
def solveInverseKinematics (t : Tree) (maxIter : ℕ) (target : Vec3)
    (q0 : List ℚ) : Except KinError (IKStatus × List ℚ) :=
  solveIK t maxIter target q0

/-- Long-form name: `getJacobianEndEffector` delegates to
`getJEndEffector`. -/
def getJacobianEndEffector (t : Tree) (ft : FrameType) (q : List ℚ) :
    Except KinError (List (Vec3 × Vec3)) := getJEndEffector t ft q

/-- A body with identity local transforms (used by the concrete examples):
kind `k`, `outs` output connectors, identity output and center-of-mass
transforms at every joint value, zero axis. -/
def idBody (k : BodyKind) (outs : ℕ) : Body :=
  ⟨k, outs, fun _ _ => mat4Id, fun _ => mat4Id, vec3Zero⟩

/-- The tree produced by `addBody` (discarding the status flag). -/
def addB (t : Tree) (ps : Option (ℕ × ℕ)) (b : Body) : Tree :=
  (addBody t ps b).2

/-- The header's worked example: base - A - B, body B with two output
connectors, C - D on B's first output and E on B's second output. -/
def exTree : Tree :=
  addB (addB (addB (addB (addB Tree.empty none (idBody .generic 1))
      (some (0, 0)) (idBody .generic 2))
      (some (1, 0)) (idBody .rotary 1))
      (some (2, 0)) (idBody .link 1))
      (some (1, 1)) (idBody .rotary 1)

/-- A one-actuator tree with identity geometry. -/
def oneTree : Tree := addB Tree.empty none (idBody .rotary 1)

/-- A two-body chain of single-output bodies: the root's one connector is
already consumed by the second body. -/
def chain2 : Tree :=
  addB (addB Tree.empty none (idBody .generic 1)) (some (0, 0)) (idBody .generic 1)

/-! ### List infrastructure -/

/-- Congruence for `List.flatMap`. -/
theorem flatMap_congr {α β : Type} {l : List α} {f g : α → List β}
    (h : ∀ x ∈ l, f x = g x) : l.flatMap f = l.flatMap g := by
  induction l with
  | nil => rfl
  | cons a l ih =>
      simp only [List.flatMap_cons]
      rw [h a (by simp), ih fun x hx => h x (by simp [hx])]

/-- A natural-number sum over a flattened list, computed blockwise. -/
theorem sum_map_flatMap {α β : Type} (l : List α) (f : α → List β) (g : β → ℕ) :
    ((l.flatMap f).map g).sum = (l.map fun a => ((f a).map g).sum).sum := by
  induction l with
  | nil => rfl
  | cons a l ih => simp [List.flatMap_cons, ih]

/-- `indexOf` over an append whose first part misses the element. -/
theorem indexOf_append_right {a : ℕ} {l₁ l₂ : List ℕ} (h : a ∉ l₁) :
    (l₁ ++ l₂).indexOf a = l₁.length + l₂.indexOf a := by
  induction l₁ with
  | nil => simp
  | cons b l ih =>
      have hb : b ≠ a := by rintro rfl; exact h (by simp)
      have hm : a ∉ l := fun hm => h (by simp [hm])
      simp [List.cons_append, List.indexOf_cons_ne _ hb, ih hm, Nat.succ_add]

/-- The number of ones in a 0/1-valued list is its sum. -/
theorem length_filter_one_eq_sum {l : List ℕ} (h : ∀ x ∈ l, x = 0 ∨ x = 1) :
    (l.filter fun x => x = 1).length = l.sum := by
  induction l with
  | nil => rfl
  | cons a l ih =>
      have ht : (l.filter fun x => x = 1).length = l.sum :=
        ih fun x hx => h x (by simp [hx])
      rcases h a (by simp) with h0 | h1 <;> subst a <;>
        simp [List.filter_cons, ht, Nat.add_comm]

/-! ### Well-formedness extraction -/

/-- A body index with a record is in range. -/
theorem recAt?_some_lt {t : Tree} {i : ℕ} {r : BodyRec}
    (h : recAt? t i = some r) : i < t.bodies.length := by
  by_contra hge
  rw [recAt?, List.getElem?_eq_none (Nat.le_of_not_lt hge)] at h
  exact Option.noConfusion h

/-- A body with a parent connector is in range. -/
theorem parentOf_some_lt {t : Tree} {i p o : ℕ}
    (h : parentOf t i = some (p, o)) : i < t.bodies.length := by
  rw [parentOf] at h
  cases hr : recAt? t i with
  | none => rw [hr] at h; exact Option.noConfusion h
  | some r => exact recAt?_some_lt hr

/-- Well-formedness, parent direction: a parent connector names an earlier
body and one of its existing outputs. -/
theorem wf_parent {t : Tree} (hw : wfB t = true) {j p o : ℕ}
    (h : parentOf t j = some (p, o)) : p < j ∧ o < outCountAt t p := by
  have hj : j < t.bodies.length := parentOf_some_lt h
  have hall := (List.all_eq_true.mp hw) j (List.mem_range.mpr hj)
  rw [h] at hall
  simpa using hall

/-- Well-formedness, root direction: an in-range body with no parent
connector is the root, body 0. -/
theorem wf_root {t : Tree} (hw : wfB t = true) {j : ℕ}
    (hj : j < t.bodies.length) (h : parentOf t j = none) : j = 0 := by
  have hall := (List.all_eq_true.mp hw) j (List.mem_range.mpr hj)
  rw [h] at hall
  simpa using hall

/-! ### Fuel elimination for the absolute-transform and ancestor chains -/

/-- Any sufficient fuel computes the same absolute input transform. -/
theorem absInF_fuel (t : Tree) (q : List ℚ) :
    ∀ i f₁ f₂, i ≤ f₁ → i ≤ f₂ → absInF t q f₁ i = absInF t q f₂ i := by
  intro i
  induction i using Nat.strong_induction_on with
  | _ i ih =>
    intro f₁ f₂ h₁ h₂
    match i, f₁, f₂ with
    | _, 0, 0 => rfl
    | i, 0, f₂ + 1 =>
        have : i = 0 := Nat.le_zero.mp h₁
        subst this
        rcases hp : parentOf t 0 with _ | ⟨p, o⟩ <;> simp [absInF, hp]
    | i, f₁ + 1, 0 =>
        have : i = 0 := Nat.le_zero.mp h₂
        subst this
        rcases hp : parentOf t 0 with _ | ⟨p, o⟩ <;> simp [absInF, hp]
    | i, f₁ + 1, f₂ + 1 =>
        simp only [absInF]
        rcases hp : parentOf t i with _ | ⟨p, o⟩
        · rfl
        · by_cases hpi : p < i
          · have hpf₁ : p ≤ f₁ := Nat.lt_succ_iff.mp (Nat.lt_of_lt_of_le hpi h₁)
            have hpf₂ : p ≤ f₂ := Nat.lt_succ_iff.mp (Nat.lt_of_lt_of_le hpi h₂)
            simp [hpi, ih p hpi f₁ f₂ hpf₁ hpf₂]
          · simp [hpi]

/-- Unfolding equation for `absIn`: the parent recurrence. -/
theorem absIn_parent (t : Tree) (q : List ℚ) (i : ℕ) :
    absIn t q i =
      match parentOf t i with
      | none => t.baseFrame
      | some (p, o) =>
          if p < i then
            mat4Mul (absIn t q p) (localOutAt t p o (jointVal t q p))
          else t.baseFrame := by
  cases i with
  | zero =>
      rcases hp : parentOf t 0 with _ | ⟨p, o⟩ <;> simp [absIn, absInF, hp]
  | succ g =>
      show absInF t q (g + 1) (g + 1) = _
      simp only [absInF]
      rcases hp : parentOf t (g + 1) with _ | ⟨p, o⟩
      · rfl
      · by_cases hpi : p < g + 1
        · have : absInF t q g p = absIn t q p :=
            absInF_fuel t q p g p (Nat.lt_succ_iff.mp hpi) (Nat.le_refl p)
          simp [hpi, this]
        · simp [hpi]

/-- On a well-formed tree, the absolute input transform of an in-range body
is exactly the parent's absolute output transform. -/
theorem absIn_eq_parentAbsOut {t : Tree} (hw : wfB t = true) (q : List ℚ)
    {i : ℕ} (hi : i < t.bodies.length) : absIn t q i = parentAbsOut t q i := by
  rw [absIn_parent, parentAbsOut]
  rcases hp : parentOf t i with _ | ⟨p, o⟩
  · rfl
  · simp [(wf_parent hw hp).1]

/-- Any sufficient fuel computes the same ancestor chain. -/
theorem ancsF_fuel (t : Tree) :
    ∀ j f₁ f₂, j ≤ f₁ → j ≤ f₂ → ancsF t f₁ j = ancsF t f₂ j := by
  intro j
  induction j using Nat.strong_induction_on with
  | _ j ih =>
    intro f₁ f₂ h₁ h₂
    match j, f₁, f₂ with
    | _, 0, 0 => rfl
    | j, 0, f₂ + 1 =>
        have : j = 0 := Nat.le_zero.mp h₁
        subst this
        rcases hp : parentOf t 0 with _ | ⟨p, o⟩ <;> simp [ancsF, hp]
    | j, f₁ + 1, 0 =>
        have : j = 0 := Nat.le_zero.mp h₂
        subst this
        rcases hp : parentOf t 0 with _ | ⟨p, o⟩ <;> simp [ancsF, hp]
    | j, f₁ + 1, f₂ + 1 =>
        simp only [ancsF]
        rcases hp : parentOf t j with _ | ⟨p, o⟩
        · rfl
        · by_cases hpj : p < j
          · have hpf₁ : p ≤ f₁ := Nat.lt_succ_iff.mp (Nat.lt_of_lt_of_le hpj h₁)
            have hpf₂ : p ≤ f₂ := Nat.lt_succ_iff.mp (Nat.lt_of_lt_of_le hpj h₂)
            simp [hpj, ih p hpj f₁ f₂ hpf₁ hpf₂]
          · simp [hpj]

/-- Unfolding equation for `ancs`: the parent recurrence. -/
theorem ancs_parent (t : Tree) (j : ℕ) :
    ancs t j =
      j :: (match parentOf t j with
            | some (p, _) => if p < j then ancs t p else []
            | none => []) := by
  cases j with
  | zero =>
      rcases hp : parentOf t 0 with _ | ⟨p, o⟩ <;> simp [ancs, ancsF, hp]
  | succ g =>
      show ancsF t (g + 1) (g + 1) = _
      simp only [ancsF]
      rcases hp : parentOf t (g + 1) with _ | ⟨p, o⟩
      · rfl
      · by_cases hpj : p < g + 1
        · have : ancsF t g p = ancs t p :=
            ancsF_fuel t p g p (Nat.lt_succ_iff.mp hpj) (Nat.le_refl p)
          simp [hpj, this]
        · simp [hpj]

/-- A body heads its own ancestor chain. -/
theorem self_mem_ancs (t : Tree) (j : ℕ) : j ∈ ancs t j := by
  rw [ancs_parent]; simp

/-- Ancestors have smaller-or-equal indices. -/
theorem ancs_le (t : Tree) : ∀ j a, a ∈ ancs t j → a ≤ j := by
  intro j
  induction j using Nat.strong_induction_on with
  | _ j ih =>
    intro a ha
    rw [ancs_parent] at ha
    rcases List.mem_cons.mp ha with rfl | ha
    · exact Nat.le_refl a
    · rcases hp : parentOf t j with _ | ⟨p, o⟩
      · rw [hp] at ha; simp at ha
      · rw [hp] at ha
        by_cases hpj : p < j
        · simp only [if_pos hpj] at ha
          exact Nat.le_of_lt (Nat.lt_of_le_of_lt (ih p hpj a ha) hpj)
        · simp only [if_neg hpj] at ha; simp at ha

/-- A strict ancestor lies on the parent's ancestor chain. -/
theorem mem_ancs_tail (t : Tree) {j a : ℕ} (ha : a ∈ ancs t j) (hne : a ≠ j) :
    ∃ p o, parentOf t j = some (p, o) ∧ p < j ∧ a ∈ ancs t p := by
  rw [ancs_parent] at ha
  rcases List.mem_cons.mp ha with rfl | ha
  · exact absurd rfl hne
  · rcases hp : parentOf t j with _ | ⟨p, o⟩
    · rw [hp] at ha; simp at ha
    · rw [hp] at ha
      by_cases hpj : p < j
      · simp only [if_pos hpj] at ha; exact ⟨p, o, rfl, hpj, ha⟩
      · simp only [if_neg hpj] at ha; simp at ha

/-- The parent's ancestor chain is contained in the child's. -/
theorem ancs_parent_sub (t : Tree) {j p o : ℕ} (hp : parentOf t j = some (p, o))
    (hpj : p < j) : ancs t p ⊆ ancs t j := by
  intro x hx
  rw [ancs_parent, hp]
  simp only [if_pos hpj, List.mem_cons]
  exact Or.inr hx

/-- The ancestor chain of an ancestor is contained in the chain. -/
theorem ancs_sub (t : Tree) : ∀ j c, c ∈ ancs t j → ancs t c ⊆ ancs t j := by
  intro j
  induction j using Nat.strong_induction_on with
  | _ j ih =>
    intro c hc
    by_cases hcj : c = j
    · subst hcj; exact fun x hx => hx
    · obtain ⟨p, o, hp, hpj, hc'⟩ := mem_ancs_tail t hc hcj
      exact fun x hx => ancs_parent_sub t hp hpj (ih p hpj c hc' hx)

/-- Two ancestors of the same body are comparable. -/
theorem ancs_total (t : Tree) : ∀ j a b, a ∈ ancs t j → b ∈ ancs t j →
    a ∈ ancs t b ∨ b ∈ ancs t a := by
  intro j
  induction j using Nat.strong_induction_on with
  | _ j ih =>
    intro a b ha hb
    by_cases haj : a = j
    · subst haj; exact Or.inr hb
    · by_cases hbj : b = j
      · subst hbj; exact Or.inl ha
      · obtain ⟨p, o, hp, hpj, ha'⟩ := mem_ancs_tail t ha haj
        obtain ⟨p', o', hp', _, hb'⟩ := mem_ancs_tail t hb hbj
        rw [hp] at hp'
        have h2 := Option.some.inj hp'
        rw [Prod.mk.injEq] at h2
        rw [← h2.1] at hb'
        exact ih p hpj a b ha' hb'

/-- On a well-formed tree, the root is an ancestor of every body. -/
theorem root_mem_ancs {t : Tree} (hw : wfB t = true) :
    ∀ j, j < t.bodies.length → 0 ∈ ancs t j := by
  intro j
  induction j using Nat.strong_induction_on with
  | _ j ih =>
    intro hj
    rcases hp : parentOf t j with _ | ⟨p, o⟩
    · have h0 := wf_root hw hj hp
      subst h0; exact self_mem_ancs t 0
    · have hlt := (wf_parent hw hp).1
      exact ancs_parent_sub t hp hlt (ih p hlt (Nat.lt_trans hlt hj))

/-! ### Traversal: fuel elimination, membership, uniqueness, coverage -/

/-- Membership in a child list. -/
theorem mem_childrenOf {t : Tree} {p o j : ℕ} :
    j ∈ childrenOf t p o ↔ j < t.bodies.length ∧ parentOf t j = some (p, o) := by
  simp [childrenOf, List.mem_filter, List.mem_range]

/-- Elements of the fuelled body traversal stay in range. -/
theorem dfsB_mem_lt (t : Tree) :
    ∀ f i j, i < t.bodies.length → j ∈ dfsB t f i → j < t.bodies.length := by
  intro f
  induction f with
  | zero => intro i j _ h; simp [dfsB] at h
  | succ f ih =>
      intro i j hi hj
      rw [dfsB] at hj
      rcases List.mem_cons.mp hj with rfl | hj
      · exact hi
      · rcases List.mem_flatMap.mp hj with ⟨o, _, hj⟩
        rcases List.mem_flatMap.mp hj with ⟨c, hc, hj⟩
        exact ih c j (mem_childrenOf.mp hc).1 hj

/-- Any sufficient fuel computes the same body traversal. -/
theorem dfsB_fuel {t : Tree} (hw : wfB t = true) :
    ∀ k i f₁ f₂, i < t.bodies.length → t.bodies.length - i ≤ k →
      t.bodies.length - i ≤ f₁ → t.bodies.length - i ≤ f₂ →
      dfsB t f₁ i = dfsB t f₂ i := by
  intro k
  induction k with
  | zero => intro i f₁ f₂ hi hk _ _; omega
  | succ k ih =>
      intro i f₁ f₂ hi hk h₁ h₂
      obtain ⟨g₁, rfl⟩ : ∃ g, f₁ = g + 1 := ⟨f₁ - 1, by omega⟩
      obtain ⟨g₂, rfl⟩ : ∃ g, f₂ = g + 1 := ⟨f₂ - 1, by omega⟩
      rw [dfsB, dfsB]
      congr 1
      apply flatMap_congr; intro o _
      apply flatMap_congr; intro c hc
      obtain ⟨hclen, hcp⟩ := mem_childrenOf.mp hc
      have hic : i < c := (wf_parent hw hcp).1
      exact ih c g₁ g₂ hclen (by omega) (by omega) (by omega)

/-- Unfolding equation for `visit`: the depth-first recurrence. -/
theorem visit_eq {t : Tree} (hw : wfB t = true) {i : ℕ}
    (hi : i < t.bodies.length) :
    visit t i = i :: ((List.range (outCountAt t i)).flatMap fun o =>
      (childrenOf t i o).flatMap fun c => visit t c) := by
  obtain ⟨m, hm⟩ : ∃ m, t.bodies.length - i = m + 1 :=
    ⟨t.bodies.length - i - 1, by omega⟩
  rw [visit, hm, dfsB]
  congr 1
  apply flatMap_congr; intro o _
  apply flatMap_congr; intro c hc
  obtain ⟨hclen, hcp⟩ := mem_childrenOf.mp hc
  have hic : i < c := (wf_parent hw hcp).1
  exact dfsB_fuel hw (t.bodies.length - c) c m (t.bodies.length - c) hclen
    (Nat.le_refl _) (by omega) (Nat.le_refl _)

/-- Elements of the fuelled output-frame traversal name in-range bodies. -/
theorem dfsOutF_mem_lt (t : Tree) :
    ∀ f i x, i < t.bodies.length → x ∈ dfsOutF t f i → x.1 < t.bodies.length := by
  intro f
  induction f with
  | zero => intro i x _ h; simp [dfsOutF] at h
  | succ f ih =>
      intro i x hi hx
      rw [dfsOutF] at hx
      rcases List.mem_flatMap.mp hx with ⟨o, _, hx⟩
      rcases List.mem_cons.mp hx with rfl | hx
      · exact hi
      · rcases List.mem_flatMap.mp hx with ⟨c, hc, hx⟩
        exact ih c x (mem_childrenOf.mp hc).1 hx

/-- Any sufficient fuel computes the same output-frame traversal. -/
theorem dfsOutF_fuel {t : Tree} (hw : wfB t = true) :
    ∀ k i f₁ f₂, i < t.bodies.length → t.bodies.length - i ≤ k →
      t.bodies.length - i ≤ f₁ → t.bodies.length - i ≤ f₂ →
      dfsOutF t f₁ i = dfsOutF t f₂ i := by
  intro k
  induction k with
  | zero => intro i f₁ f₂ hi hk _ _; omega
  | succ k ih =>
      intro i f₁ f₂ hi hk h₁ h₂
      obtain ⟨g₁, rfl⟩ : ∃ g, f₁ = g + 1 := ⟨f₁ - 1, by omega⟩
      obtain ⟨g₂, rfl⟩ : ∃ g, f₂ = g + 1 := ⟨f₂ - 1, by omega⟩
      rw [dfsOutF, dfsOutF]
      apply flatMap_congr; intro o _
      congr 1
      apply flatMap_congr; intro c hc
      obtain ⟨hclen, hcp⟩ := mem_childrenOf.mp hc
      have hic : i < c := (wf_parent hw hcp).1
      exact ih c g₁ g₂ hclen (by omega) (by omega) (by omega)

/-- Unfolding equation for `visitO`: the depth-first recurrence. -/
theorem visitO_eq {t : Tree} (hw : wfB t = true) {i : ℕ}
    (hi : i < t.bodies.length) :
    visitO t i = (List.range (outCountAt t i)).flatMap fun o =>
      (i, o) :: ((childrenOf t i o).flatMap fun c => visitO t c) := by
  obtain ⟨m, hm⟩ : ∃ m, t.bodies.length - i = m + 1 :=
    ⟨t.bodies.length - i - 1, by omega⟩
  rw [visitO, hm, dfsOutF]
  apply flatMap_congr; intro o _
  congr 1
  apply flatMap_congr; intro c hc
  obtain ⟨hclen, hcp⟩ := mem_childrenOf.mp hc
  have hic : i < c := (wf_parent hw hcp).1
  exact dfsOutF_fuel hw (t.bodies.length - c) c m (t.bodies.length - c) hclen
    (Nat.le_refl _) (by omega) (Nat.le_refl _)

/-- Sum congruence over a mapped list. -/
theorem sum_map_congr {α : Type} {l : List α} {f g : α → ℕ}
    (h : ∀ x ∈ l, f x = g x) : (l.map f).sum = (l.map g).sum := by
  rw [List.map_congr_left h]

/-- Forward direction: every body in the subtree traversal of `i` has `i`
on its ancestor chain. -/
theorem mem_visit_fwd {t : Tree} (hw : wfB t = true) :
    ∀ k i, i < t.bodies.length → t.bodies.length - i ≤ k →
      ∀ j ∈ visit t i, i ∈ ancs t j := by
  intro k
  induction k with
  | zero => intro i hi hk; omega
  | succ k ih =>
      intro i hi hk j hj
      rw [visit_eq hw hi] at hj
      rcases List.mem_cons.mp hj with rfl | hj
      · exact self_mem_ancs t j
      · rcases List.mem_flatMap.mp hj with ⟨o, _, hj⟩
        rcases List.mem_flatMap.mp hj with ⟨c, hc, hj⟩
        obtain ⟨hclen, hcp⟩ := mem_childrenOf.mp hc
        have hic : i < c := (wf_parent hw hcp).1
        have hcj : c ∈ ancs t j := ih c hclen (by omega) j hj
        exact ancs_sub t j c hcj (ancs_parent_sub t hcp hic (self_mem_ancs t i))

/-- A subtree traversal contains the traversals of its members. -/
theorem visit_sub {t : Tree} (hw : wfB t = true) :
    ∀ k i, i < t.bodies.length → t.bodies.length - i ≤ k →
      ∀ p ∈ visit t i, visit t p ⊆ visit t i := by
  intro k
  induction k with
  | zero => intro i hi hk; omega
  | succ k ih =>
      intro i hi hk p hp
      rw [visit_eq hw hi] at hp
      rcases List.mem_cons.mp hp with rfl | hp
      · exact fun x hx => hx
      · rcases List.mem_flatMap.mp hp with ⟨o, ho, hp⟩
        rcases List.mem_flatMap.mp hp with ⟨c, hc, hp⟩
        obtain ⟨hclen, hcp⟩ := mem_childrenOf.mp hc
        have hic : i < c := (wf_parent hw hcp).1
        intro x hx
        have hxc : x ∈ visit t c := ih c hclen (by omega) p hp hx
        rw [visit_eq hw hi]
        exact List.mem_cons.mpr (Or.inr (List.mem_flatMap.mpr
          ⟨o, ho, List.mem_flatMap.mpr ⟨c, hc, hxc⟩⟩))

/-- Backward direction: a body lies in the subtree traversal of each of its
ancestors. -/
theorem mem_visit_bwd {t : Tree} (hw : wfB t = true) :
    ∀ j, j < t.bodies.length → ∀ i, i ∈ ancs t j → j ∈ visit t i := by
  intro j
  induction j using Nat.strong_induction_on with
  | _ j ihj =>
    intro hj i hi
    have hij : i ≤ j := ancs_le t j i hi
    have hilen : i < t.bodies.length := Nat.lt_of_le_of_lt hij hj
    by_cases heq : i = j
    · subst heq; rw [visit_eq hw hilen]; simp
    · obtain ⟨p, o, hp, hpj, hi'⟩ := mem_ancs_tail t hi heq
      have hplen : p < t.bodies.length := Nat.lt_trans hpj hj
      have hpv : p ∈ visit t i := ihj p hpj hplen i hi'
      have hjvp : j ∈ visit t p := by
        rw [visit_eq hw hplen]
        refine List.mem_cons.mpr (Or.inr (List.mem_flatMap.mpr
          ⟨o, List.mem_range.mpr (wf_parent hw hp).2, List.mem_flatMap.mpr
            ⟨j, mem_childrenOf.mpr ⟨hj, hp⟩, ?_⟩⟩))
        rw [visit_eq hw hj]; simp
      exact visit_sub hw t.bodies.length i hilen (by omega) p hpv hjvp

/-- Subtree members are at least the subtree root. -/
theorem visit_ge {t : Tree} (hw : wfB t = true) {i : ℕ}
    (hi : i < t.bodies.length) : ∀ j ∈ visit t i, i ≤ j :=
  fun j hj => ancs_le t j i (mem_visit_fwd hw t.bodies.length i hi (by omega) j hj)

/-- Subtrees hanging off distinct children of the same body are disjoint. -/
theorem subtree_disjoint {t : Tree} (hw : wfB t = true) {i o₁ o₂ c₁ c₂ : ℕ}
    (hc₁ : c₁ ∈ childrenOf t i o₁) (hc₂ : c₂ ∈ childrenOf t i o₂)
    (hne : c₁ ≠ c₂) : List.Disjoint (visit t c₁) (visit t c₂) := by
  intro j hj₁ hj₂
  obtain ⟨hl₁, hp₁⟩ := mem_childrenOf.mp hc₁
  obtain ⟨hl₂, hp₂⟩ := mem_childrenOf.mp hc₂
  have ha₁ : c₁ ∈ ancs t j := mem_visit_fwd hw t.bodies.length c₁ hl₁ (by omega) j hj₁
  have ha₂ : c₂ ∈ ancs t j := mem_visit_fwd hw t.bodies.length c₂ hl₂ (by omega) j hj₂
  have hi₁ : i < c₁ := (wf_parent hw hp₁).1
  have hi₂ : i < c₂ := (wf_parent hw hp₂).1
  rcases ancs_total t j c₁ c₂ ha₁ ha₂ with h | h
  · obtain ⟨p, o, hp, _, hcp⟩ := mem_ancs_tail t h hne
    rw [hp₂] at hp
    have h2 := Option.some.inj hp
    rw [Prod.mk.injEq] at h2
    rw [← h2.1] at hcp
    exact absurd (ancs_le t i c₁ hcp) (Nat.not_le_of_lt hi₁)
  · obtain ⟨p, o, hp, _, hcp⟩ := mem_ancs_tail t h (Ne.symm hne)
    rw [hp₁] at hp
    have h2 := Option.some.inj hp
    rw [Prod.mk.injEq] at h2
    rw [← h2.1] at hcp
    exact absurd (ancs_le t i c₂ hcp) (Nat.not_le_of_lt hi₂)

/-- Subtree traversals never repeat a body. -/
theorem visit_nodup {t : Tree} (hw : wfB t = true) :
    ∀ k i, i < t.bodies.length → t.bodies.length - i ≤ k →
      (visit t i).Nodup := by
  intro k
  induction k with
  | zero => intro i hi hk; omega
  | succ k ih =>
      intro i hi hk
      rw [visit_eq hw hi]
      refine List.nodup_cons.mpr ⟨?_, ?_⟩
      · intro hmem
        rcases List.mem_flatMap.mp hmem with ⟨o, _, hmem⟩
        rcases List.mem_flatMap.mp hmem with ⟨c, hc, hmem⟩
        obtain ⟨hclen, hcp⟩ := mem_childrenOf.mp hc
        have hic : i < c := (wf_parent hw hcp).1
        exact absurd (visit_ge hw hclen i hmem) (Nat.not_le_of_lt hic)
      · rw [List.nodup_flatMap]
        constructor
        · intro o _
          rw [List.nodup_flatMap]
          constructor
          · intro c hc
            obtain ⟨hclen, hcp⟩ := mem_childrenOf.mp hc
            have hic : i < c := (wf_parent hw hcp).1
            exact ih c hclen (by omega)
          · refine List.Nodup.pairwise_of_forall_ne
              (List.Nodup.filter _ (List.nodup_range _)) ?_
            intro c₁ h₁ c₂ h₂ hne
            exact subtree_disjoint hw h₁ h₂ hne
        · refine List.Nodup.pairwise_of_forall_ne (List.nodup_range _) ?_
          intro o₁ _ o₂ _ hne
          intro j hj₁ hj₂
          rcases List.mem_flatMap.mp hj₁ with ⟨c₁, hc₁, hj₁⟩
          rcases List.mem_flatMap.mp hj₂ with ⟨c₂, hc₂, hj₂⟩
          have hne' : c₁ ≠ c₂ := by
            intro hcc
            subst hcc
            have e₁ := (mem_childrenOf.mp hc₁).2
            have e₂ := (mem_childrenOf.mp hc₂).2
            rw [e₁] at e₂
            have h2 := Option.some.inj e₂
            rw [Prod.mk.injEq] at h2
            exact hne h2.2
          exact subtree_disjoint hw hc₁ hc₂ hne' hj₁ hj₂

/-- The root traversal contains exactly the in-range body indices. -/
theorem mem_visit_zero {t : Tree} (hw : wfB t = true)
    (h0 : 0 < t.bodies.length) :
    ∀ j, j ∈ visit t 0 ↔ j < t.bodies.length := by
  intro j
  constructor
  · exact fun hj => dfsB_mem_lt t _ 0 j h0 hj
  · exact fun hj => mem_visit_bwd hw j hj 0 (root_mem_ancs hw j hj)

/-- The depth-first body list never repeats a body. -/
theorem dfsBodies_nodup {t : Tree} (hw : wfB t = true) :
    (dfsBodies t).Nodup := by
  rw [dfsBodies]
  by_cases he : t.bodies.isEmpty
  · simp [he]
  · have h0 : 0 < t.bodies.length :=
      List.length_pos.mpr fun hnil => he (by simp [hnil])
    simp only [he, Bool.false_eq_true, ite_false]
    exact visit_nodup hw t.bodies.length 0 h0 (by omega)

/-- The depth-first body list is a permutation of the full index range:
every body is visited exactly once. -/
theorem dfsBodies_perm {t : Tree} (hw : wfB t = true) :
    (dfsBodies t).Perm (List.range t.bodies.length) := by
  refine List.perm_of_nodup_nodup_toFinset_eq (dfsBodies_nodup hw)
    (List.nodup_range _) ?_
  ext j
  simp only [List.mem_toFinset, List.mem_range]
  rw [dfsBodies]
  by_cases he : t.bodies.isEmpty
  · have h0 : t.bodies.length = 0 := by
      rcases List.isEmpty_iff.mp he with hnil
      simp [hnil]
    simp [he, h0]
  · have h0 : 0 < t.bodies.length :=
      List.length_pos.mpr fun hnil => he (by simp [hnil])
    simp only [he, Bool.false_eq_true, ite_false]
    exact mem_visit_zero hw h0 j

/-- The depth-first body list visits every body exactly once. -/
theorem dfsBodies_length {t : Tree} (hw : wfB t = true) :
    (dfsBodies t).length = t.bodies.length := by
  rw [(dfsBodies_perm hw).length_eq, List.length_range]

/-- Sums over the depth-first body list agree with sums over the index
range. -/
theorem dfsBodies_sum {t : Tree} (hw : wfB t = true) (f : ℕ → ℕ) :
    ((dfsBodies t).map f).sum = ((List.range t.bodies.length).map f).sum :=
  ((dfsBodies_perm hw).map f).sum_eq

/-- Pointwise sum distribution over a mapped list. -/
theorem sum_map_add {α : Type} (l : List α) (f g : α → ℕ) :
    (l.map fun x => f x + g x).sum = (l.map f).sum + (l.map g).sum := by
  induction l with
  | nil => rfl
  | cons a l ih => simp [ih]; omega

/-- Sum of the constant-one map is the length. -/
theorem sum_map_one {α : Type} (l : List α) :
    (l.map fun _ => 1).sum = l.length := by
  induction l with
  | nil => rfl
  | cons a l ih => simp [ih, Nat.add_comm]

/-- The output-frame traversal has one frame per output connector of each
visited body. -/
theorem visitO_length {t : Tree} (hw : wfB t = true) :
    ∀ k i, i < t.bodies.length → t.bodies.length - i ≤ k →
      (visitO t i).length = ((visit t i).map (outCountAt t)).sum := by
  intro k
  induction k with
  | zero => intro i hi hk; omega
  | succ k ih =>
      intro i hi hk
      rw [visitO_eq hw hi, visit_eq hw hi, List.length_flatMap]
      rw [List.map_cons, List.sum_cons, sum_map_flatMap]
      have hL : ((List.range (outCountAt t i)).map
            (List.length ∘ fun o => (i, o) ::
              ((childrenOf t i o).flatMap fun c => visitO t c))).sum
          = ((List.range (outCountAt t i)).map fun o =>
              ((childrenOf t i o).map fun c => (visitO t c).length).sum + 1).sum := by
        apply sum_map_congr
        intro o _
        simp [List.length_flatMap, Function.comp_def]
      rw [hL, sum_map_add, sum_map_one, List.length_range]
      have hR : ((List.range (outCountAt t i)).map fun o =>
            (((childrenOf t i o).flatMap fun c => visit t c).map
              (outCountAt t)).sum).sum
          = ((List.range (outCountAt t i)).map fun o =>
              ((childrenOf t i o).map fun c => (visitO t c).length).sum).sum := by
        apply sum_map_congr
        intro o _
        rw [sum_map_flatMap]
        apply sum_map_congr
        intro c hc
        obtain ⟨hclen, hcp⟩ := mem_childrenOf.mp hc
        have hic : i < c := (wf_parent hw hcp).1
        exact (ih c hclen (by omega)).symm
      rw [hR]
      omega

/-- The frame list has exactly `getFrameCount` entries: one per body for
center-of-mass frames, one per output connector per body for output
frames. -/
theorem frameList_length {t : Tree} (hw : wfB t = true) (ft : FrameType) :
    (frameList t ft).length = getFrameCount t ft := by
  cases ft with
  | centerOfMass =>
      simp [frameList, getFrameCount, dfsBodies_length hw]
  | output =>
      rw [frameList, getFrameCount]
      by_cases he : t.bodies.isEmpty
      · have h0 : t.bodies.length = 0 := by
          rcases List.isEmpty_iff.mp he with hnil
          simp [hnil]
        simp [he, h0]
      · have h0 : 0 < t.bodies.length :=
          List.length_pos.mpr fun hnil => he (by simp [hnil])
        simp only [he, Bool.false_eq_true, ite_false]
        rw [visitO_length hw t.bodies.length 0 h0 (by omega)]
        have : visit t 0 = dfsBodies t := by
          rw [dfsBodies]
          simp [he]
        rw [this, dfsBodies_sum hw]

/-- Frames name in-range bodies. -/
theorem frameList_fst_lt {t : Tree} {ft : FrameType} {x : ℕ × ℕ}
    (hx : x ∈ frameList t ft) : x.1 < t.bodies.length := by
  cases ft with
  | centerOfMass =>
      simp only [frameList] at hx
      rcases List.mem_map.mp hx with ⟨i, hi, rfl⟩
      rw [dfsBodies] at hi
      by_cases he : t.bodies.isEmpty
      · simp [he] at hi
      · have h0 : 0 < t.bodies.length :=
          List.length_pos.mpr fun hnil => he (by simp [hnil])
        simp only [he, Bool.false_eq_true, ite_false] at hi
        exact dfsB_mem_lt t _ 0 i h0 hi
  | output =>
      simp only [frameList] at hx
      by_cases he : t.bodies.isEmpty
      · simp [he] at hx
      · have h0 : 0 < t.bodies.length :=
          List.length_pos.mpr fun hnil => he (by simp [hnil])
        simp only [he, Bool.false_eq_true, ite_false] at hx
        exact dfsOutF_mem_lt t _ 0 x h0 hx

/-- The per-index joint-count list agrees with the per-record one. -/
theorem dofAt_map_range (t : Tree) :
    (List.range t.bodies.length).map (dofAt t)
      = t.bodies.map fun r => r.body.dof := by
  apply List.ext_getElem
  · simp
  · intro i h1 h2
    simp only [List.getElem_map, List.getElem_range]
    have hi : i < t.bodies.length := by simpa using h2
    simp [dofAt, recAt?, List.getElem?_eq_getElem hi]

/-- Every body contributes 0 or 1 joint variables. -/
theorem dofAt_zero_or_one (t : Tree) (i : ℕ) : dofAt t i = 0 ∨ dofAt t i = 1 := by
  rw [dofAt]
  rcases hr : recAt? t i with _ | r
  · exact Or.inl rfl
  · rcases hk : r.body.kind <;> simp [Body.dof, hk]

/-- There is exactly one Jacobian column per settable degree of freedom. -/
theorem jointBodies_length (t : Tree) :
    (jointBodies t).length = getDoFCount t := by
  rw [jointBodies, getDoFCount, ← dofAt_map_range]
  have h1 : ((List.range t.bodies.length).map (dofAt t)).filter (fun x => x = 1)
      = ((List.range t.bodies.length).filter
          ((fun x => decide (x = 1)) ∘ dofAt t)).map (dofAt t) :=
    List.filter_map (dofAt t) (List.range t.bodies.length)
  have h2 : (((List.range t.bodies.length).map (dofAt t)).filter
      (fun x => x = 1)).length
      = ((List.range t.bodies.length).map (dofAt t)).sum :=
    length_filter_one_eq_sum (by
      intro x hx
      rcases List.mem_map.mp hx with ⟨i, _, rfl⟩
      exact dofAt_zero_or_one t i)
  rw [← h2, h1, List.length_map]
  rfl

/-- Decomposition of the root traversal around the subtree of a member. -/
theorem visit_infix {t : Tree} (hw : wfB t = true) :
    ∀ k i, i < t.bodies.length → t.bodies.length - i ≤ k →
      ∀ p ∈ visit t i, ∃ L₁ L₂, visit t i = L₁ ++ visit t p ++ L₂ := by
  intro k
  induction k with
  | zero => intro i hi hk; omega
  | succ k ih =>
      intro i hi hk p hp
      rw [visit_eq hw hi] at hp
      rcases List.mem_cons.mp hp with rfl | hp
      · exact ⟨[], [], by simp [visit_eq hw hi]⟩
      · rcases List.mem_flatMap.mp hp with ⟨o, ho, hp⟩
        rcases List.mem_flatMap.mp hp with ⟨c, hc, hp⟩
        obtain ⟨hclen, hcp⟩ := mem_childrenOf.mp hc
        have hic : i < c := (wf_parent hw hcp).1
        obtain ⟨M₁, M₂, hM⟩ := ih c hclen (by omega) p hp
        obtain ⟨r₁, r₂, hr⟩ := List.append_of_mem ho
        obtain ⟨s₁, s₂, hs⟩ := List.append_of_mem hc
        refine ⟨i :: (r₁.flatMap (fun o => (childrenOf t i o).flatMap fun c =>
            visit t c) ++ (s₁.flatMap (fun c => visit t c) ++ M₁)),
          M₂ ++ (s₂.flatMap (fun c => visit t c) ++ r₂.flatMap fun o =>
            (childrenOf t i o).flatMap fun c => visit t c), ?_⟩
        rw [visit_eq hw hi, hr]
        simp only [List.flatMap_append, List.flatMap_cons]
        rw [hs]
        simp only [List.flatMap_append, List.flatMap_cons]
        rw [hM]
        simp [List.append_assoc, List.cons_append]

/-- In the depth-first order, a strict ancestor is visited strictly
earlier. -/
theorem dfIdx_lt_of_ancs {t : Tree} (hw : wfB t = true) {i b : ℕ}
    (hi : i < t.bodies.length) (hb : b ∈ ancs t i) (hne : b ≠ i) :
    dfIdx t b < dfIdx t i := by
  have hble : b ≤ i := ancs_le t i b hb
  have hblen : b < t.bodies.length := Nat.lt_of_le_of_lt hble hi
  have h0 : 0 < t.bodies.length := Nat.lt_of_le_of_lt (Nat.zero_le i) hi
  have hvis : dfsBodies t = visit t 0 := by
    rw [dfsBodies]
    have he : ¬ t.bodies.isEmpty = true := by
      intro he
      rcases List.isEmpty_iff.mp he with hnil
      rw [hnil] at h0
      simp at h0
    simp [he]
  have hbv0 : b ∈ visit t 0 := (mem_visit_zero hw h0 b).mpr hblen
  have hinb : i ∈ visit t b := mem_visit_bwd hw i hi b hb
  obtain ⟨L₁, L₂, hdec⟩ := visit_infix hw t.bodies.length 0 h0 (by omega) b hbv0
  have hdec' : visit t 0 = L₁ ++ (visit t b ++ L₂) := by
    rw [hdec, List.append_assoc]
  have hnd : (visit t 0).Nodup := visit_nodup hw t.bodies.length 0 h0 (by omega)
  rw [hdec'] at hnd
  obtain ⟨-, -, hdisj⟩ := List.nodup_append.mp hnd
  obtain ⟨tb, htb⟩ : ∃ tb, visit t b = b :: tb :=
    ⟨_, visit_eq hw hblen⟩
  have hbL₁ : b ∉ L₁ := fun hmem =>
    hdisj hmem (List.mem_append.mpr (Or.inl (by rw [htb]; simp)))
  have hiL₁ : i ∉ L₁ := fun hmem =>
    hdisj hmem (List.mem_append.mpr (Or.inl hinb))
  have hidxb : dfIdx t b = L₁.length := by
    rw [dfIdx, hvis, hdec', indexOf_append_right hbL₁, htb,
      List.cons_append, List.indexOf_cons_self]
    omega
  have hidxi : dfIdx t i = L₁.length + ((tb ++ L₂).indexOf i).succ := by
    rw [dfIdx, hvis, hdec', indexOf_append_right hiL₁, htb,
      List.cons_append, List.indexOf_cons_ne _ hne]
  omega

/-! ### Claim theorems -/

/-- C10: `getBaseFrame` returns exactly the matrix most recently passed to
`setBaseFrame` (the last write wins), and the identity matrix for a freshly
constructed tree on which `setBaseFrame` has never been called.  The
FK/Jacobian/IK queries are pure functions of the tree and return no
modified tree, so no such call can change the base frame. -/
theorem C10_base_frame :
    (∀ t M, getBaseFrame (setBaseFrame t M) = M)
    ∧ (∀ t M N, getBaseFrame (setBaseFrame (setBaseFrame t M) N) = N)
    ∧ getBaseFrame Tree.empty = mat4Id :=
  ⟨fun _ _ => rfl, fun _ _ _ => rfl, rfl⟩

/-- C9: each short-form/long-form public method pair is extensionally
equal: `getForwardKinematics`/`getFK`, `getJacobians`/`getJ`,
`solveInverseKinematics`/`solveIK`, `getJacobianEndEffector`/
`getJEndEffector` agree on every tree, frame type and joint vector. -/
theorem C9_name_pairs :
    (∀ t ft q, getForwardKinematics t ft q = getFK t ft q)
    ∧ (∀ t ft q, getJacobians t ft q = getJ t ft q)
    ∧ (∀ t n target q0,
        solveInverseKinematics t n target q0 = solveIK t n target q0)
    ∧ (∀ t ft q, getJacobianEndEffector t ft q = getJEndEffector t ft q) :=
  ⟨fun _ _ _ => rfl, fun _ _ _ => rfl, fun _ _ _ _ => rfl, fun _ _ _ => rfl⟩

/-- C8 (counterexample): on a freshly created tree with zero bodies,
`getFK` does not return a single frame equal to the tree's base frame; it
returns the empty frame list, matching the documented frame-count contract
(one frame per body / per output) under which an empty tree has zero
frames. -/
theorem C8_counterexample :
    getFK Tree.empty .output [] = .ok ([] : List Mat4)
    ∧ getFK Tree.empty .output [] ≠ .ok [getBaseFrame Tree.empty] := by
  refine ⟨rfl, ?_⟩
  intro h
  rw [show getFK Tree.empty .output [] = .ok ([] : List Mat4) from rfl] at h
  exact List.noConfusion (Except.ok.inj h)

/-- C8 (amended): for a freshly created tree with zero bodies,
`getDoFCount` returns 0 and `getFK` succeeds with an empty frame list for
either frame type, consistent with a frame count of 0. -/
theorem C8_empty_tree :
    getDoFCount Tree.empty = 0
    ∧ (∀ ft, getFK Tree.empty ft [] = .ok ([] : List Mat4))
    ∧ (∀ ft, getFrameCount Tree.empty ft = 0) := by
  refine ⟨rfl, ?_, ?_⟩ <;> intro ft <;> cases ft <;> rfl

/-- Per-record degrees of freedom sum to the count of rotary bodies. -/
theorem dof_sum_eq_rotary_count (l : List BodyRec) :
    (l.map fun r => r.body.dof).sum
      = (l.filter fun r => r.body.kind = BodyKind.rotary).length := by
  induction l with
  | nil => rfl
  | cons r l ih =>
      rw [List.map_cons, List.sum_cons, List.filter_cons, ih]
      rcases hk : r.body.kind <;> simp [Body.dof, hk, Nat.add_comm]

/-- C7: every rotary actuator contributes exactly one degree of freedom and
every fixed link or generic transform contributes zero, so `getDoFCount`
equals the number of actuator bodies appended, and each successful
`addBody` grows the count by the new body's contribution. -/
theorem C7_dof_count :
    (∀ t, getDoFCount t
        = (t.bodies.filter fun r => r.body.kind = BodyKind.rotary).length)
    ∧ (∀ b : Body, (b.kind = BodyKind.rotary → b.dof = 1)
        ∧ (b.kind = BodyKind.link → b.dof = 0)
        ∧ (b.kind = BodyKind.generic → b.dof = 0))
    ∧ (∀ t ps b, (addBody t ps b).1 = true →
        getDoFCount (addBody t ps b).2 = getDoFCount t + b.dof) := by
  refine ⟨?_, ?_, ?_⟩
  · intro t
    exact dof_sum_eq_rotary_count t.bodies
  · intro b
    refine ⟨?_, ?_, ?_⟩ <;> intro hk <;> simp [Body.dof, hk]
  · intro t ps b h
    rcases ps with _ | ⟨p, o⟩
    · by_cases he : t.bodies.isEmpty
      · have hnil : t.bodies = [] := List.isEmpty_iff.mp he
        simp [addBody, he, getDoFCount, hnil]
      · simp [addBody, he] at h
    · rcases hr : recAt? t p with _ | pr
      · simp [addBody, hr] at h
      · by_cases hc : o < pr.body.outputCount ∧ connectorFree t p o = true
        · simp [addBody, hr, hc, getDoFCount]
        · simp [addBody, hr, hc] at h

/-- C7 witness: appending an actuator to the empty tree raises the DoF
count from 0 by exactly 1. -/
theorem C7_dof_count_witness :
    getDoFCount (addBody Tree.empty none (idBody .rotary 1)).2
      = getDoFCount Tree.empty + (idBody .rotary 1).dof :=
  C7_dof_count.2.2 Tree.empty none (idBody .rotary 1) (by decide)

/-- C6: `addBody` reports failure through its boolean status (never by
throwing — the model is a total function), and a failed call leaves the
tree — hence its DoF count and its frame count for every frame type —
unchanged. -/
theorem C6_addBody_failure :
    ∀ t ps b, (addBody t ps b).1 = false →
      (addBody t ps b).2 = t
      ∧ getDoFCount (addBody t ps b).2 = getDoFCount t
      ∧ ∀ ft, getFrameCount (addBody t ps b).2 ft = getFrameCount t ft := by
  intro t ps b h
  have h2 : (addBody t ps b).2 = t := by
    rcases ps with _ | ⟨p, o⟩
    · by_cases he : t.bodies.isEmpty
      · simp [addBody, he] at h
      · simp [addBody, he]
    · rcases hr : recAt? t p with _ | pr
      · simp [addBody, hr]
      · by_cases hc : o < pr.body.outputCount ∧ connectorFree t p o = true
        · simp [addBody, hr, hc] at h
        · simp [addBody, hr, hc]
  exact ⟨h2, by rw [h2], fun ft => by rw [h2]⟩

/-- C6 witness: appending to the already-consumed single connector of the
root of a two-body chain fails and leaves the tree unchanged. -/
theorem C6_addBody_failure_witness :
    (addBody chain2 (some (0, 0)) (idBody .generic 1)).1 = false
    ∧ (addBody chain2 (some (0, 0)) (idBody .generic 1)).2 = chain2 :=
  ⟨by decide,
   (C6_addBody_failure chain2 (some (0, 0)) (idBody .generic 1) (by decide)).1⟩

/-- C5: every FK, end-effector, Jacobian and IK call whose joint vector has
the wrong length reports a dimension mismatch synchronously and produces no
frames, Jacobians or IK result. -/
theorem C5_dimension_mismatch :
    ∀ t (q : List ℚ) ft n target, q.length ≠ getDoFCount t →
      getFK t ft q = .error .dimensionMismatch
      ∧ getEndEffector t ft q = .error .dimensionMismatch
      ∧ getJ t ft q = .error .dimensionMismatch
      ∧ getJEndEffector t ft q = .error .dimensionMismatch
      ∧ solveIK t n target q = .error .dimensionMismatch := by
  intro t q ft n target h
  refine ⟨?_, ?_, ?_, ?_, ?_⟩ <;>
    simp [getFK, getEndEffector, getJ, getJEndEffector, solveIK, h, Except.map]

/-- C5 witness: a too-short joint vector on the example tree is rejected
with a dimension mismatch. -/
theorem C5_dimension_mismatch_witness :
    ([] : List ℚ).length ≠ getDoFCount exTree
    ∧ getFK exTree .output [] = .error .dimensionMismatch :=
  ⟨by decide,
   (C5_dimension_mismatch exTree [] .output 1 vec3Zero (by decide)).1⟩

/-- C1: on a well-formed tree, with a joint vector of the right length,
`getFK` succeeds and returns one absolute 4x4 transform per frame of the
requested type; the `k`-th returned transform is the parent's absolute
output transform multiplied by the body's local transform (of the
requested frame type) evaluated at the body's joint value; and the parent
transform of the root body is the tree's base frame. -/
theorem C1_forward_kinematics :
    ∀ t (q : List ℚ) ft, wfB t = true → q.length = getDoFCount t →
      ∃ F, getFK t ft q = .ok F
        ∧ F.length = getFrameCount t ft
        ∧ (∀ (k : ℕ) (x : ℕ × ℕ), (frameList t ft)[k]? = some x →
            F[k]? = some (mat4Mul (parentAbsOut t q x.1)
              (localFrame t ft x.1 x.2 (jointVal t q x.1))))
        ∧ (∀ i, parentOf t i = none → parentAbsOut t q i = t.baseFrame) := by
  intro t q ft hw hq
  refine ⟨(frameList t ft).map (frameAbs t q ft), ?_, ?_, ?_, ?_⟩
  · simp [getFK, hq]
  · simp [List.length_map, frameList_length hw]
  · intro k x hk
    rw [List.getElem?_map, hk, Option.map]
    have hmem : x ∈ frameList t ft := List.getElem?_mem hk
    have hlt : x.1 < t.bodies.length := frameList_fst_lt hmem
    rw [frameAbs, absIn_eq_parentAbsOut hw q hlt]
  · intro i hp
    rw [parentAbsOut, hp]

/-- C1 witness: the example tree with both joints at zero. -/
theorem C1_forward_kinematics_witness :
    wfB exTree = true
    ∧ ([0, 0] : List ℚ).length = getDoFCount exTree
    ∧ ∃ F, getFK exTree .output [0, 0] = .ok F
        ∧ F.length = getFrameCount exTree .output :=
  ⟨by decide, by decide, by
    obtain ⟨F, h1, h2, -, -⟩ :=
      C1_forward_kinematics exTree [0, 0] .output (by decide) (by decide)
    exact ⟨F, h1, h2⟩⟩

/-- C4: the frames returned by the forward kinematics are in depth-first
order — every parent is visited strictly before each of its children — and
on the header's worked example (root A, two-output body B, chain C-D under
B's first output, E under its second) the output frames come in the order
A, B(1), C, D, B(2), E while the center-of-mass frames come in the order
A, B, C, D, E, exactly one per body. -/
theorem C4_depth_first_order :
    (∀ t, wfB t = true → ∀ p o c, c ∈ childrenOf t p o →
        dfIdx t p < dfIdx t c)
    ∧ frameList exTree .output = [(0, 0), (1, 0), (2, 0), (3, 0), (1, 1), (4, 0)]
    ∧ frameList exTree .centerOfMass = [(0, 0), (1, 0), (2, 0), (3, 0), (4, 0)]
    ∧ getFrameCount exTree .centerOfMass = 5 := by
  refine ⟨?_, by decide, by decide, by decide⟩
  intro t hw p o c hc
  obtain ⟨hclen, hcp⟩ := mem_childrenOf.mp hc
  have hpc : p < c := (wf_parent hw hcp).1
  have hpm : p ∈ ancs t c := ancs_parent_sub t hcp hpc (self_mem_ancs t p)
  exact dfIdx_lt_of_ancs hw hclen hpm (Nat.ne_of_lt hpc)

/-- C4 witness: body B (index 1) is visited before its child C (index 2)
in the example tree. -/
theorem C4_depth_first_order_witness :
    (2 ∈ childrenOf exTree 1 0) ∧ dfIdx exTree 1 < dfIdx exTree 2 :=
  ⟨by decide, C4_depth_first_order.1 exTree (by decide) 1 0 2 (by decide)⟩

/-- A joint body fails to precede a frame's body exactly when it comes
strictly later in the depth-first traversal or lies in a disjoint branch
(neither body is an ancestor of the other). -/
theorem not_precedes_iff {t : Tree} (hw : wfB t = true) {b i : ℕ}
    (hb : b < t.bodies.length) (hi : i < t.bodies.length) :
    b ∉ ancs t i ↔
      (dfIdx t i < dfIdx t b ∨ (b ∉ ancs t i ∧ i ∉ ancs t b)) := by
  constructor
  · intro h
    by_cases hib : i ∈ ancs t b
    · have hne : i ≠ b := by
        intro he
        rw [he] at h
        exact h (self_mem_ancs t b)
      exact Or.inl (dfIdx_lt_of_ancs hw hb hib hne)
    · exact Or.inr ⟨h, hib⟩
  · rintro (h | ⟨h, -⟩)
    · intro hmem
      by_cases hbi : b = i
      · subst hbi; exact absurd h (lt_irrefl _)
      · exact absurd (dfIdx_lt_of_ancs hw hi hmem hbi) (by omega)
    · exact h

/-- C2: on a well-formed tree, with a joint vector of the right length,
`getJ` succeeds and returns one Jacobian per frame, in the same depth-first
frame order as `getFK`; each Jacobian has one column per degree of freedom
(in the depth-first joint order); the column for joint body `b` and target
frame `x` is `(a × (p_T − p_j), a)` — `a` the joint's world-frame axis and
`p_j` its world position, both evaluated at the current joint vector — when
`b` kinematically precedes the frame, and the zero column otherwise; and
not-preceding is exactly "later in the depth-first traversal, or in a
disjoint branch". -/
theorem C2_jacobians :
    ∀ t (q : List ℚ) ft, wfB t = true → q.length = getDoFCount t →
      ∃ Js, getJ t ft q = .ok Js
        ∧ Js.length = getFrameCount t ft
        ∧ (∀ (k : ℕ) (x : ℕ × ℕ), (frameList t ft)[k]? = some x →
            Js[k]? = some (jacOfFrame t q ft x))
        ∧ (∀ x : ℕ × ℕ, (jacOfFrame t q ft x).length = getDoFCount t)
        ∧ (∀ (x : ℕ × ℕ) (c b : ℕ), (jointBodies t)[c]? = some b →
            (jacOfFrame t q ft x)[c]? = some (
              if b ∈ ancs t x.1 then
                (cross (jointAxisW t q b)
                  (vsub (transOf (frameAbs t q ft x)) (jointPosW t q b)),
                 jointAxisW t q b)
              else (vec3Zero, vec3Zero)))
        ∧ (∀ b i, b < t.bodies.length → i < t.bodies.length →
            (b ∉ ancs t i ↔ (dfIdx t i < dfIdx t b
              ∨ (b ∉ ancs t i ∧ i ∉ ancs t b)))) := by
  intro t q ft hw hq
  refine ⟨(frameList t ft).map (jacOfFrame t q ft), ?_, ?_, ?_, ?_, ?_, ?_⟩
  · simp [getJ, hq]
  · simp [List.length_map, frameList_length hw]
  · intro k x hk
    rw [List.getElem?_map, hk, Option.map]
  · intro x
    simp [jacOfFrame, List.length_map, jointBodies_length]
  · intro x c b hc
    rw [jacOfFrame, List.getElem?_map, hc, Option.map]
    rfl
  · intro b i hb hi
    exact not_precedes_iff hw hb hi

/-- C2 witness: the example tree with both joints at zero. -/
theorem C2_jacobians_witness :
    wfB exTree = true
    ∧ ([0, 0] : List ℚ).length = getDoFCount exTree
    ∧ ∃ Js, getJ exTree .output [0, 0] = .ok Js
        ∧ Js.length = getFrameCount exTree .output :=
  ⟨by decide, by decide, by
    obtain ⟨Js, h1, h2, -, -, -, -⟩ :=
      C2_jacobians exTree [0, 0] .output (by decide) (by decide)
    exact ⟨Js, h1, h2⟩⟩

/-- The seed heads its own iterate trace. -/
theorem mem_ikTrace_self (t : Tree) (target : Vec3) (n : ℕ) (q : List ℚ) :
    q ∈ ikTrace t target n q := by
  cases n <;> simp [ikTrace]

set_option maxHeartbeats 1000000 in
/-- When no iterate in the trace meets the tolerance, the IK loop exhausts
its budget and returns the lowest-error vector among the initial best and
all visited iterates. -/
theorem ikLoop_exhaust (t : Tree) (target : Vec3) :
    ∀ n (q best : List ℚ), errSq t target best ≤ errSq t target q →
      (∀ v ∈ ikTrace t target n q, ¬ errSq t target v < ikTol2) →
      ∃ r, ikLoop t target n q best = (.maxIterationsReached, r)
        ∧ r ∈ best :: ikTrace t target n q
        ∧ ∀ v ∈ best :: ikTrace t target n q,
            errSq t target r ≤ errSq t target v := by
  intro n
  induction n with
  | zero =>
      intro q best hb hnc
      refine ⟨best, rfl, by simp, ?_⟩
      intro v hv
      rcases List.mem_cons.mp hv with rfl | hv
      · exact le_refl _
      · simp only [ikTrace, List.mem_singleton] at hv
        subst hv
        exact hb
  | succ n ih =>
      intro q best hb hnc
      have hq : ¬ errSq t target q < ikTol2 :=
        hnc q (mem_ikTrace_self t target (n + 1) q)
      have htr : ikTrace t target (n + 1) q
          = q :: ikTrace t target n (dlsStep t target q) := by
        rw [ikTrace, if_neg hq]
      have hloop : ikLoop t target (n + 1) q best
          = ikLoop t target n (dlsStep t target q)
              (if errSq t target (dlsStep t target q) < errSq t target best
               then dlsStep t target q else best) := by
        rw [ikLoop, if_neg hq]
      have hb2 : errSq t target
          (if errSq t target (dlsStep t target q) < errSq t target best
           then dlsStep t target q else best)
          ≤ errSq t target (dlsStep t target q) := by
        by_cases h2 : errSq t target (dlsStep t target q) < errSq t target best
        · rw [if_pos h2]
        · rw [if_neg h2]
          exact le_of_not_lt h2
      have hnc2 : ∀ v ∈ ikTrace t target n (dlsStep t target q),
          ¬ errSq t target v < ikTol2 := by
        intro v hv
        exact hnc v (by rw [htr]; exact List.mem_cons.mpr (Or.inr hv))
      have hbb : errSq t target
          (if errSq t target (dlsStep t target q) < errSq t target best
           then dlsStep t target q else best) ≤ errSq t target best := by
        by_cases h2 : errSq t target (dlsStep t target q) < errSq t target best
        · rw [if_pos h2]; exact le_of_lt h2
        · rw [if_neg h2]
      have hsplit : (if errSq t target (dlsStep t target q) < errSq t target best
            then dlsStep t target q else best) = dlsStep t target q
          ∨ (if errSq t target (dlsStep t target q) < errSq t target best
            then dlsStep t target q else best) = best := by
        by_cases h2 : errSq t target (dlsStep t target q) < errSq t target best
        · exact Or.inl (if_pos h2)
        · exact Or.inr (if_neg h2)
      obtain ⟨b2, hbd⟩ : ∃ b2,
          (if errSq t target (dlsStep t target q) < errSq t target best
           then dlsStep t target q else best) = b2 := ⟨_, rfl⟩
      rw [hbd] at hloop hb2 hbb hsplit
      obtain ⟨r, hr, hmem, hmin⟩ := ih (dlsStep t target q) b2 hb2 hnc2
      refine ⟨r, by rw [hloop]; exact hr, ?_, ?_⟩
      · rw [htr]
        rcases List.mem_cons.mp hmem with rfl | hm
        · rcases hsplit with he | he
          · rw [he]
            exact List.mem_cons.mpr (Or.inr (List.mem_cons.mpr
              (Or.inr (mem_ikTrace_self t target n _))))
          · rw [he]
            exact List.mem_cons.mpr (Or.inl rfl)
        · exact List.mem_cons.mpr (Or.inr (List.mem_cons.mpr (Or.inr hm)))
      · intro v hv
        rw [htr] at hv
        rcases List.mem_cons.mp hv with rfl | hv
        · exact le_trans (hmin _ (List.mem_cons.mpr (Or.inl rfl))) hbb
        · rcases List.mem_cons.mp hv with rfl | hv
          · exact le_trans
              (le_trans (hmin _ (List.mem_cons.mpr (Or.inl rfl))) hbb) hb
          · exact hmin v (List.mem_cons.mpr (Or.inr hv))

/-- C3: when `solveIK` exhausts its iteration budget with no visited
iterate meeting the convergence tolerance, it stops, returns the best
(lowest-squared-error) joint vector among the visited iterates, and reports
the distinct non-convergence status `maxIterationsReached`, which is never
the success status `converged`. -/
theorem C3_ik_non_convergence :
    ∀ t (n : ℕ) (target : Vec3) (q0 : List ℚ),
      q0.length = getDoFCount t →
      (∀ v ∈ ikTrace t target n q0, ¬ errSq t target v < ikTol2) →
      ∃ r, solveIK t n target q0 = .ok (.maxIterationsReached, r)
        ∧ r ∈ ikTrace t target n q0
        ∧ (∀ v ∈ ikTrace t target n q0,
            errSq t target r ≤ errSq t target v)
        ∧ IKStatus.maxIterationsReached ≠ IKStatus.converged := by
  intro t n target q0 hq hnc
  obtain ⟨r, hr, hmem, hmin⟩ :=
    ikLoop_exhaust t target n q0 q0 (le_refl _) hnc
  refine ⟨r, ?_, ?_, ?_, by simp⟩
  · simp [solveIK, hq, hr]
  · rcases List.mem_cons.mp hmem with rfl | h
    · exact mem_ikTrace_self t target n r
    · exact h
  · intro v hv
    exact hmin v (List.mem_cons.mpr (Or.inr hv))

set_option maxHeartbeats 4000000 in
/-- C3 witness: a one-actuator tree with identity geometry and an
unreachable target; a budget of two iterations is exhausted without
convergence and the non-convergence status is reported. -/
theorem C3_ik_non_convergence_witness :
    (([0] : List ℚ).length = getDoFCount oneTree)
    ∧ (∀ v ∈ ikTrace oneTree (fun _ => 10) 2 [0],
        ¬ errSq oneTree (fun _ => 10) v < ikTol2)
    ∧ ∃ r, solveIK oneTree 2 (fun _ => 10) [0]
        = .ok (.maxIterationsReached, r) :=
  ⟨by decide, by decide, by
    obtain ⟨r, h1, -, -, -⟩ :=
      C3_ik_non_convergence oneTree 2 (fun _ => 10) [0] (by decide) (by decide)
    exact ⟨r, h1⟩⟩

end RMCS
